import Mathlib

/-!
Verification of the neighbor-joining / Newick pipeline of `cmcm2019/contracts.py`.

The Python functions `neighbor_join`, `assemble_tree` and `generate_newick`,
and the root-insertion block of `main`, are embedded shallowly:

* the mutable dict-of-dicts distance matrix `d` becomes `Store : ℕ → ℕ → Option ℚ`
  (an absent dictionary entry is `none`); Python floats are modelled as
  rationals, writes are explicit functional updates performed in the source's
  order;
* `while`-loops and recursion become fuel-indexed structural recursion; the
  fuel supplied by the wrappers is provably sufficient on the inputs the
  theorems speak about, and exhaustion is mapped to `none` exactly like the
  Python runtime errors it stands in for;
* a Python crash (IndexError on `L[1]`, ValueError on tuple unpacking or on
  `list.remove` of a missing element) is modelled as an `Option` result of
  `none`.
-/

namespace Contracts

/-- The distance store, Python's dict-of-dicts `d`: entry `d i j` is `some v`
when the Python dict has key `j` in row `i`, and `none` when the entry is
absent. -/
def Store : Type := ℕ → ℕ → Option ℚ

/-- Lookup `d[i][j]`.  On every read the algorithm performs for the inputs
considered in the theorems the entry is present (this is proved as an
invariant), so defaulting an absent entry to `0` never changes a value that
Python would have produced. -/
def dget (d : Store) (i j : ℕ) : ℚ := (d i j).getD 0

/-- Single-entry write `d[a][b] = v`. -/
def dset (d : Store) (a b : ℕ) (v : ℚ) : Store :=
  fun x y => if x = a ∧ y = b then some v else d x y

/-- Row creation `d[k] = (i : 0 for i in range(k+1))`: row `k` is replaced by
a row holding `0` at keys `0..k` and nothing else. -/
def initRow (d : Store) (k : ℕ) : Store :=
  fun x y => if x = k then (if y ≤ k then some 0 else none) else d x y

/-- The divergence `r[i]` of the source (lines 23-28): the sum over active
`j` of `d[i][j] / (len(L) - 2)`, accumulated term by term exactly as the
Python loop does. -/
def divergence (L : List ℕ) (d : Store) (i : ℕ) : ℚ :=
  (L.map (fun j => dget d i j / ((L.length : ℚ) - 2))).sum

/-- The transformed score `D[i][j] = d[i][j] - (r[i] + r[j])` of source
line 32. -/
def qscore (L : List ℕ) (d : Store) (i j : ℕ) : ℚ :=
  dget d i j - (divergence L d i + divergence L d j)

/-- The pair-selection scan of source lines 34-43: the minimum is seeded with
`(L[0], L[1])` and the doubly nested loop over `L` replaces it only on a
strictly smaller score. -/
def select_pair (L : List ℕ) (f : ℕ → ℕ → ℚ) : ℕ × ℕ :=
  let i0 := L.headD 0
  let j0 := L.tail.headD 0
  let r := L.foldl (fun acc i => L.foldl (fun acc2 j =>
      if i ≠ j ∧ f i j < acc2.2.2 then (i, j, f i j) else acc2) acc)
    (i0, j0, f i0 j0)
  (r.1, r.2.1)

/-- The state of `neighbor_join`'s while-loop: active list `L`, next fresh
id `k`, accumulated `edges`, and the distance store `d`. -/
structure NJState where
  L : List ℕ
  k : ℕ
  edges : List (ℕ × ℕ)
  d : Store

/-- The row-extension loop of source lines 53-57: for `m` in `0..k` in order,
`d[k][m] = (1/2)*(d[i_min][m] + d[j_min][m] - d[i_min][j_min])` followed by
`d[m][k] = d[k][m]`, each read seeing the writes already performed. -/
def row_update (d : Store) (k iMin jMin : ℕ) : Store :=
  (List.range (k + 1)).foldl (fun st m =>
    let v := (1 / 2 : ℚ) * (dget st iMin m + dget st jMin m - dget st iMin jMin)
    dset (dset st k m v) m k v) d

/-- The store updates of one loop iteration (source lines 52-65), performed
in the source's order: create row `k`, run the row-extension loop, then the
two branch-length writes with their symmetric copies, then `d[k][k] = 0`. -/
def stepStore (d : Store) (L : List ℕ) (iMin jMin k : ℕ) : Store :=
  let d1 := initRow d k
  let d2 := row_update d1 k iMin jMin
  let vI := (1 / 2 : ℚ) *
    (dget d2 iMin jMin + divergence L d iMin - divergence L d jMin)
  let d3 := dset d2 iMin k vI
  let vJ := dget d3 iMin jMin - dget d3 iMin k
  let d4 := dset d3 jMin k vJ
  let d5 := dset d4 k iMin (dget d4 iMin k)
  let d6 := dset d5 k jMin (dget d5 jMin k)
  dset d6 k k 0

/-- One iteration of the reduction loop, source lines 20-67. -/
def njStep (s : NJState) : NJState :=
  let sel := select_pair s.L (qscore s.L s.d)
  ⟨((s.L.erase sel.1).erase sel.2) ++ [s.k], s.k + 1,
    s.edges ++ [(sel.1, s.k), (sel.2, s.k)],
    stepStore s.d s.L sel.1 sel.2 s.k⟩

/-- The `while len(L) > 2` loop.  The wrapper passes fuel `n`, which is
provably more than the `n - 2` iterations the loop performs. -/
def njLoop : ℕ → NJState → NJState
  | 0, s => s
  | fuel + 1, s => if 2 < s.L.length then njLoop fuel (njStep s) else s

/-- The store corresponding to an input matrix over ids `0..n-1`: exactly the
entries with both ids below `n` are present. -/
def mkStore (n : ℕ) (D : ℕ → ℕ → ℚ) : Store :=
  fun i j => if i < n ∧ j < n then some (D i j) else none

/-- The initial loop state of source lines 13-18: `L = list(range(n))`,
`edges = []`, `k = n`. -/
def initState (n : ℕ) (d0 : Store) : NJState := ⟨List.range n, n, [], d0⟩

/-- `neighbor_join(d)` for a store over ids `0..n-1` (`n` models `len(d)`).
After the loop the source appends the edge `(L[0], L[1])`; a final list with
fewer than two elements makes that access an IndexError, modelled as `none`.
The fuel branch is unreachable (proved below for the initial state). -/
def neighbor_join (n : ℕ) (d0 : Store) : Option (List (ℕ × ℕ) × Store) :=
  let s := njLoop n (initState n d0)
  if 2 < s.L.length then none
  else
    match s.L with
    | a :: b :: _ => some (s.edges ++ [(a, b)], s.d)
    | _ => none

/-- All ordered pairs `(i, j)` with `i, j ∈ L`, in the visit order of the
source's doubly nested loop (outer `i`, inner `j`). -/
def allPairs (L : List ℕ) : List (ℕ × ℕ) :=
  L.flatMap (fun i => L.map (fun j => (i, j)))

/-- The pairs actually considered by the selection scan: the visit order of
the nested loop restricted to `i ≠ j`. -/
def scanPairs (L : List ℕ) : List (ℕ × ℕ) :=
  (allPairs L).filter (fun p => p.1 ≠ p.2)

/-- Strict lexicographic order on pairs: ascending first component, then
ascending second component. -/
def pairLt (p q : ℕ × ℕ) : Prop :=
  p.1 < q.1 ∨ (p.1 = q.1 ∧ p.2 < q.2)

/-- The maximum-weight-edge scan of `main` (source lines 180-188): the scan
is seeded with `d_max = 0` and pair `(0, 0)` and an edge replaces the current
maximum only when its weight is strictly greater. -/
def select_max_edge (edges : List (ℕ × ℕ)) (d : Store) : ℕ × ℕ :=
  let r := edges.foldl (fun acc e =>
      if acc.2.2 < dget d e.1 e.2 then (e.1, e.2, dget d e.1 e.2) else acc)
    (0, 0, (0 : ℚ))
  (r.1, r.2.1)

/-- The root-insertion block of `main` (source lines 190-194): remove the
selected edge (Python `list.remove` deletes the first occurrence and raises
ValueError, modelled `none`, when the element is absent) and append the two
root edges.  `root` is `len(d)`. -/
def insert_root (edges : List (ℕ × ℕ)) (d : Store) (root : ℕ) :
    Option (List (ℕ × ℕ)) :=
  let sel := select_max_edge edges d
  if sel ∈ edges then some ((edges.erase sel) ++ [(sel.1, root), (sel.2, root)])
  else none

/-- The reducer-plus-root-insertion pipeline of `main` on an input matrix over
ids `0..n-1`: run `neighbor_join`, then insert the root.  The final state's
`k` is the number of rows of the returned store (proved below), i.e. Python's
`len(d)`. -/
def main_root (n : ℕ) (D : ℕ → ℕ → ℚ) : Option (List (ℕ × ℕ)) :=
  let s := njLoop n (initState n (mkStore n D))
  if 2 < s.L.length then none
  else
    match s.L with
    | a :: b :: _ => insert_root (s.edges ++ [(a, b)]) s.d s.k
    | _ => none

/-- The decimal digit character for `n % 10`. -/
def digitChar (n : ℕ) : Char := Char.ofNat (48 + n % 10)

/-- The six zero-padded decimal digits of `a % 1000000`, most significant
first. -/
def frac6 (a : ℕ) : String :=
  String.mk [digitChar (a / 100000), digitChar (a / 10000), digitChar (a / 1000),
    digitChar (a / 100), digitChar (a / 10), digitChar a]

/-- Fixed-point rendering with six decimal digits, modelling Python's
format specifier of width `.6f` applied to the stored value: the value is
scaled by `10^6` and rounded to an integer (the source formats a binary
double, which agrees except for representation error and the rounding of
exact ties), then printed as integer part, a dot, and six zero-padded
fractional digits. -/
def fmt6 (q : ℚ) : String :=
  let s : ℤ := ⌊q * 1000000 + 1 / 2⌋
  (if s < 0 then "-" else "") ++ toString (s.natAbs / 1000000) ++ "." ++
    frac6 (s.natAbs % 1000000)

/-- The leaf output of `generate_newick` (source lines 142-146): the node's
label from the optional id-to-name mapping, or its textual id. -/
def leafLabel (mp : Option (ℕ → String)) (root : ℕ) : String :=
  match mp with
  | some m => m root
  | none => toString root

/-- `generate_newick` (source lines 141-163).  The tree map is total (a
missing dict key is outside every input the claims quantify over); `fuel`
bounds the recursion depth, with exhaustion mapped to `none` (Python would
recurse forever only on a cyclic map).  A child list that is neither empty
nor an exact pair makes Python's tuple unpacking raise ValueError, modelled
as `none`. -/
def generate_newick : ℕ → (ℕ → List ℕ) → Store → Option (ℕ → String) → ℕ →
    Bool → Option String
  | 0, _, _, _, _, _ => none
  | fuel + 1, tm, d, mp, root, first =>
    match tm root with
    | [] => some (leafLabel mp root)
    | [i, j] =>
      match generate_newick fuel tm d mp i false,
          generate_newick fuel tm d mp j false with
      | some sL, some sR =>
        let iLen := if first then dget d i j / 2 else dget d root i
        let jLen := if first then dget d i j / 2 else dget d root j
        some ( "(" ++ sL ++ ":" ++ fmt6 iLen ++ "," ++ sR ++ ":" ++ fmt6 jLen
          ++ ")" ++ (if first then ";" else ""))
      | _, _ => none
    | _ => none

/-- The edge partition of `assemble_tree` (source lines 87-97): one pass over
the edge list collecting the children of `root` (in edge order) and the
non-incident edges. -/
def childrenAndRest (root : ℕ) (edges : List (ℕ × ℕ)) :
    List ℕ × List (ℕ × ℕ) :=
  edges.foldl (fun acc e =>
    if e.1 = root then (acc.1 ++ [e.2], acc.2)
    else if e.2 = root then (acc.1 ++ [e.1], acc.2)
    else (acc.1, acc.2 ++ [e])) ([], [])

/-- Python `dict` insertion with `update` semantics: an existing key keeps its
position and gets the new value, a new key is appended. -/
def setAssoc (m : List (ℕ × List ℕ)) (kv : ℕ × List ℕ) : List (ℕ × List ℕ) :=
  if m.any (fun p => p.1 = kv.1) then
    m.map (fun p => if p.1 = kv.1 then kv else p)
  else m ++ [kv]

/-- Worklist form of the recursion of `assemble_tree` (source lines 86-103):
each entry is a node together with the edge list passed to its call; entries
are processed in depth-first order, which inserts `(node, children)` records
into the map in exactly the order the Python recursion and `dict.update`
produce.  `fuel` bounds the number of processed nodes (the Python recursion
is unbounded and diverges on cyclic inputs). -/
def assembleLoop : ℕ → List (ℕ × List (ℕ × ℕ)) → List (ℕ × List ℕ) →
    Option (List (ℕ × List ℕ))
  | _, [], acc => some acc
  | 0, _ :: _, _ => none
  | fuel + 1, (node, edges) :: rest, acc =>
    let cr := childrenAndRest node edges
    assembleLoop fuel (cr.1.map (fun c => (c, cr.2)) ++ rest)
      (setAssoc acc (node, cr.1))

/-- `assemble_tree(root, edges)` as the worklist iteration started at the
root. -/
def assemble_tree (fuel : ℕ) (root : ℕ) (edges : List (ℕ × ℕ)) :
    Option (List (ℕ × List ℕ)) :=
  assembleLoop fuel [(root, edges)] []

/-- The row-extension loop stopped after `t` of its `k + 1` steps. -/
def row_update_go (d : Store) (k iMin jMin : ℕ) (t : ℕ) : Store :=
  (List.range t).foldl (fun st m =>
    let v := (1 / 2 : ℚ) * (dget st iMin m + dget st jMin m - dget st iMin jMin)
    dset (dset st k m v) m k v) d

/-- The invariant maintained by the reduction loop started on an input matrix
over ids `0..n-1`: the active list is strictly ascending and below the fresh
id `k`, sizes are linked by `|L| + k = 2n`, the edge list holds two edges per
created node and mentions only ids below `k`, every id below `k` is active or
mentioned by an edge, and the store is present exactly on `k × k`, symmetric,
with zero diagonal. -/
structure Inv (n : ℕ) (s : NJState) : Prop where
  sorted : s.L.Pairwise (· < ·)
  bound : ∀ x ∈ s.L, x < s.k
  kn : n ≤ s.k
  lenk : s.L.length + s.k = 2 * n
  elen : s.edges.length = 2 * (s.k - n)
  ebound : ∀ e ∈ s.edges, e.1 < s.k ∧ e.2 < s.k
  cover : ∀ m, m < s.k → m ∈ s.L ∨ ∃ e ∈ s.edges, e.1 = m ∨ e.2 = m
  dsome : ∀ a b, a < s.k → b < s.k → (s.d a b).isSome = true
  dnone : ∀ a b, s.k ≤ a ∨ s.k ≤ b → s.d a b = none
  dsymm : ∀ a b, dget s.d a b = dget s.d b a
  ddiag : ∀ a, dget s.d a a = 0

/-- Example matrix for witnesses: distance 1 between distinct ids, zero
diagonal. -/
def Dex : ℕ → ℕ → ℚ := fun i j => if i = j then 0 else 1

/-- The two-cherries matrix of the 4-leaf scenario: pairs (0,1) and (2,3) at
distance 1, all cross distances 10, zero diagonal. -/
def Dpairs : ℕ → ℕ → ℚ := fun i j =>
  if i = j then 0
  else if (i = 0 ∧ j = 1) ∨ (i = 1 ∧ j = 0) ∨ (i = 2 ∧ j = 3) ∨ (i = 3 ∧ j = 2) then 1
  else 10

/-- Example tree map for witnesses: node 2 has children 0 and 1, which are
leaves. -/
def tmEx : ℕ → List ℕ := fun t => if t = 2 then [0, 1] else []

/-! ### Characterization of fold-based scans

The selection scans of the source (minimum `Q` pair, maximum-weight edge)
are folds that replace the current best only on a strict improvement.  The
lemmas below characterize such folds: the result is the first element of the
scan attaining the optimum. -/

theorem foldl_min_split {α : Type} (v : α → ℚ) (l : List α) : ∀ b : α,
    ∃ l1 l2,
      b :: l = l1 ++ (l.foldl (fun x p => if v p < v x then p else x) b) :: l2 ∧
      (∀ p ∈ l1, v (l.foldl (fun x p => if v p < v x then p else x) b) < v p) ∧
      ∀ p ∈ b :: l, v (l.foldl (fun x p => if v p < v x then p else x) b) ≤ v p := by
  induction l with
  | nil => exact fun b => ⟨[], [], rfl, by simp, by simp⟩
  | cons a l ih =>
    intro b
    rw [List.foldl_cons]
    by_cases hab : v a < v b
    · rw [if_pos hab]
      obtain ⟨l1, l2, hsplit, hstrict, hle⟩ := ih a
      have hra : v (l.foldl (fun x p => if v p < v x then p else x) a) ≤ v a :=
        hle a (List.mem_cons_self a l)
      refine ⟨b :: l1, l2, ?_, ?_, ?_⟩
      · rw [List.cons_append, ← hsplit]
      · intro p hp
        rcases List.mem_cons.mp hp with rfl | h
        · exact lt_of_le_of_lt hra hab
        · exact hstrict p h
      · intro p hp
        rcases List.mem_cons.mp hp with rfl | h
        · exact le_of_lt (lt_of_le_of_lt hra hab)
        · exact hle p h
    · rw [if_neg hab]
      obtain ⟨l1, l2, hsplit, hstrict, hle⟩ := ih b
      cases l1 with
      | nil =>
        rw [List.nil_append] at hsplit
        injection hsplit with h1 h2
        refine ⟨[], a :: l2, ?_, by simp, ?_⟩
        · rw [List.nil_append, ← h1, ← h2]
        · intro p hp
          rcases List.mem_cons.mp hp with rfl | h
          · exact hle _ (List.mem_cons_self _ _)
          · rcases List.mem_cons.mp h with rfl | h'
            · rw [← h1]; exact le_of_not_lt hab
            · exact hle p (List.mem_cons_of_mem b (h2 ▸ h'))
      | cons c l1' =>
        rw [List.cons_append] at hsplit
        injection hsplit with h1 h2
        have hresb : v (l.foldl (fun x p => if v p < v x then p else x) b) < v b := by
          have := hstrict c (List.mem_cons_self c l1')
          rw [← h1] at this
          exact this
        refine ⟨b :: a :: l1', l2, ?_, ?_, ?_⟩
        · rw [List.cons_append, List.cons_append, ← h2]
        · intro p hp
          rcases List.mem_cons.mp hp with rfl | h
          · exact hresb
          · rcases List.mem_cons.mp h with rfl | h'
            · exact lt_of_lt_of_le hresb (le_of_not_lt hab)
            · exact hstrict p (List.mem_cons_of_mem c h')
        · intro p hp
          rcases List.mem_cons.mp hp with rfl | h
          · exact le_of_lt hresb
          · rcases List.mem_cons.mp h with rfl | h'
            · exact le_of_lt (lt_of_lt_of_le hresb (le_of_not_lt hab))
            · exact hle p (List.mem_cons_of_mem b (h2 ▸ h'))

theorem foldl_max_split {α : Type} (v : α → ℚ) (l : List α) : ∀ b : α,
    (l.foldl (fun x p => if v x < v p then p else x) b = b ∧ ∀ p ∈ l, v p ≤ v b) ∨
    ∃ l1 l2,
      l = l1 ++ (l.foldl (fun x p => if v x < v p then p else x) b) :: l2 ∧
      v b < v (l.foldl (fun x p => if v x < v p then p else x) b) ∧
      (∀ p ∈ l1, v p < v (l.foldl (fun x p => if v x < v p then p else x) b)) ∧
      ∀ p ∈ l2, v p ≤ v (l.foldl (fun x p => if v x < v p then p else x) b) := by
  induction l with
  | nil => exact fun b => Or.inl ⟨rfl, by simp⟩
  | cons a l ih =>
    intro b
    rw [List.foldl_cons]
    by_cases hab : v b < v a
    · rw [if_pos hab]
      rcases ih a with ⟨hres, hle⟩ | ⟨l1, l2, hsplit, hgt, hstrict, hle⟩
      · refine Or.inr ⟨[], l, ?_, ?_, by simp, ?_⟩
        · rw [List.nil_append, hres]
        · rw [hres]; exact hab
        · rw [hres]; exact hle
      · refine Or.inr ⟨a :: l1, l2, ?_, lt_trans hab hgt, ?_, hle⟩
        · rw [List.cons_append, ← hsplit]
        · intro p hp
          rcases List.mem_cons.mp hp with h | h
          · exact h ▸ hgt
          · exact hstrict p h
    · rw [if_neg hab]
      rcases ih b with ⟨hres, hle⟩ | ⟨l1, l2, hsplit, hgt, hstrict, hle⟩
      · refine Or.inl ⟨hres, ?_⟩
        intro p hp
        rcases List.mem_cons.mp hp with h | h
        · exact h ▸ le_of_not_lt hab
        · exact hle p h
      · refine Or.inr ⟨a :: l1, l2, ?_, hgt, ?_, hle⟩
        · rw [List.cons_append, ← hsplit]
        · intro p hp
          rcases List.mem_cons.mp hp with h | h
          · exact h ▸ lt_of_le_of_lt (le_of_not_lt hab) hgt
          · exact hstrict p h

theorem foldl_min_triple (f : ℕ → ℕ → ℚ) (l : List (ℕ × ℕ)) : ∀ a b : ℕ,
    l.foldl (fun acc q => if f q.1 q.2 < acc.2.2 then (q.1, q.2, f q.1 q.2) else acc)
      (a, b, f a b) =
    ((l.foldl (fun x q => if f q.1 q.2 < f x.1 x.2 then q else x) (a, b)).1,
     (l.foldl (fun x q => if f q.1 q.2 < f x.1 x.2 then q else x) (a, b)).2,
     f (l.foldl (fun x q => if f q.1 q.2 < f x.1 x.2 then q else x) (a, b)).1
       (l.foldl (fun x q => if f q.1 q.2 < f x.1 x.2 then q else x) (a, b)).2) := by
  induction l with
  | nil => exact fun a b => rfl
  | cons p l ih =>
    intro a b
    rw [List.foldl_cons, List.foldl_cons]
    by_cases h : f p.1 p.2 < f a b
    · rw [if_pos h, if_pos h]; exact ih p.1 p.2
    · rw [if_neg h, if_neg h]; exact ih a b

theorem foldl_max_triple (v : ℕ × ℕ → ℚ) (l : List (ℕ × ℕ)) :
    ∀ (a b : ℕ) (c : ℚ), c = v (a, b) →
    l.foldl (fun acc q => if acc.2.2 < v q then (q.1, q.2, v q) else acc) (a, b, c) =
    ((l.foldl (fun x q => if v x < v q then q else x) (a, b)).1,
     (l.foldl (fun x q => if v x < v q then q else x) (a, b)).2,
     v (l.foldl (fun x q => if v x < v q then q else x) (a, b))) := by
  induction l with
  | nil =>
    intro a b c hc
    rw [List.foldl_nil, List.foldl_nil, hc]
  | cons p l ih =>
    intro a b c hc
    subst hc
    rw [List.foldl_cons, List.foldl_cons]
    by_cases h : v (a, b) < v p
    · rw [if_pos h, if_pos h]; exact ih p.1 p.2 (v p) rfl
    · rw [if_neg h, if_neg h]; exact ih a b _ rfl

theorem nested_guard_eq (f : ℕ → ℕ → ℚ) (L : List ℕ) (M : List ℕ) :
    ∀ acc : ℕ × ℕ × ℚ,
    M.foldl (fun acc i => L.foldl (fun acc2 j =>
        if i ≠ j ∧ f i j < acc2.2.2 then (i, j, f i j) else acc2) acc) acc =
    (M.flatMap (fun i => L.map (fun j => (i, j)))).foldl
      (fun acc q => if q.1 ≠ q.2 ∧ f q.1 q.2 < acc.2.2
        then (q.1, q.2, f q.1 q.2) else acc) acc := by
  induction M with
  | nil => exact fun acc => rfl
  | cons x M ih =>
    intro acc
    rw [List.foldl_cons, ih, List.flatMap_cons, List.foldl_append, List.foldl_map]

theorem foldl_guard_filter (f : ℕ → ℕ → ℚ) (l : List (ℕ × ℕ)) :
    ∀ acc : ℕ × ℕ × ℚ,
    l.foldl (fun acc q =>
        if q.1 ≠ q.2 ∧ f q.1 q.2 < acc.2.2 then (q.1, q.2, f q.1 q.2) else acc)
      acc =
    (l.filter (fun p => p.1 ≠ p.2)).foldl
      (fun acc q => if f q.1 q.2 < acc.2.2 then (q.1, q.2, f q.1 q.2) else acc)
      acc := by
  induction l with
  | nil => exact fun acc => rfl
  | cons a l ih =>
    intro acc
    by_cases h : a.1 = a.2
    · have hfil : (a :: l).filter (fun p : ℕ × ℕ => p.1 ≠ p.2) =
          l.filter (fun p : ℕ × ℕ => p.1 ≠ p.2) := by
        simp [List.filter_cons, h]
      rw [List.foldl_cons, if_neg (fun hc => hc.1 h), hfil]
      exact ih acc
    · have hfil : (a :: l).filter (fun p : ℕ × ℕ => p.1 ≠ p.2) =
          a :: l.filter (fun p : ℕ × ℕ => p.1 ≠ p.2) := by
        simp [List.filter_cons, h]
      rw [List.foldl_cons, hfil, List.foldl_cons]
      have hstep : (if a.1 ≠ a.2 ∧ f a.1 a.2 < acc.2.2
            then (a.1, a.2, f a.1 a.2) else acc) =
          (if f a.1 a.2 < acc.2.2 then (a.1, a.2, f a.1 a.2) else acc) := by
        by_cases h2 : f a.1 a.2 < acc.2.2
        · rw [if_pos ⟨h, h2⟩, if_pos h2]
        · rw [if_neg (fun hc => h2 hc.2), if_neg h2]
      rw [hstep]
      exact ih _

theorem scanPairs_head (x y : ℕ) (t : List ℕ) (hxy : x ≠ y) :
    scanPairs (x :: y :: t) = (x, y) ::
      (((t.map (fun j => (x, j))).filter (fun p => p.1 ≠ p.2)) ++
        ((y :: t).flatMap (fun i => ((x :: y :: t).map (fun j => (i, j))))).filter
          (fun p => p.1 ≠ p.2)) := by
  simp only [scanPairs, allPairs, List.flatMap_cons, List.filter_append,
    List.map_cons, List.filter_cons]
  simp [hxy]

theorem scanPairs_mem {L : List ℕ} {p : ℕ × ℕ} (h : p ∈ scanPairs L) :
    p.1 ∈ L ∧ p.2 ∈ L ∧ p.1 ≠ p.2 := by
  have h1 := List.mem_filter.mp h
  obtain ⟨i, hi, hmem⟩ := List.mem_flatMap.mp h1.1
  obtain ⟨j, hj, rfl⟩ := List.mem_map.mp hmem
  exact ⟨hi, hj, by simpa using h1.2⟩

theorem allPairs_pairwise {M L : List ℕ} (hM : M.Pairwise (· < ·))
    (hL : L.Pairwise (· < ·)) :
    (M.flatMap (fun i => L.map (fun j => (i, j)))).Pairwise pairLt := by
  induction M with
  | nil => simp
  | cons x M ih =>
    rw [List.flatMap_cons, List.pairwise_append]
    obtain ⟨hx, hM2⟩ := List.pairwise_cons.mp hM
    refine ⟨?_, ih hM2, ?_⟩
    · exact List.pairwise_map.mpr (hL.imp fun hab => Or.inr ⟨rfl, hab⟩)
    · intro p hp q hq
      obtain ⟨a, _, rfl⟩ := List.mem_map.mp hp
      obtain ⟨i, hiM, hq2⟩ := List.mem_flatMap.mp hq
      obtain ⟨b, _, rfl⟩ := List.mem_map.mp hq2
      exact Or.inl (hx i hiM)

theorem scanPairs_pairwise {L : List ℕ} (hs : L.Pairwise (· < ·)) :
    (scanPairs L).Pairwise pairLt :=
  List.Pairwise.sublist (List.filter_sublist _) (allPairs_pairwise hs hs)

/-- The pair selected by the scan of source lines 34-43 is the first pair, in
nested-loop visit order, attaining the minimum score: the scan list splits
around the selected pair, every earlier pair scores strictly higher, and no
pair scores lower. -/
theorem select_pair_spec (f : ℕ → ℕ → ℚ) (L : List ℕ)
    (hs : L.Pairwise (· < ·)) (hlen : 2 ≤ L.length) :
    ∃ ps1 ps2,
      scanPairs L = ps1 ++ (select_pair L f) :: ps2 ∧
      (∀ p ∈ ps1, f (select_pair L f).1 (select_pair L f).2 < f p.1 p.2) ∧
      ∀ p ∈ scanPairs L, f (select_pair L f).1 (select_pair L f).2 ≤ f p.1 p.2 := by
  cases L with
  | nil => simp at hlen
  | cons x L2 =>
    cases L2 with
    | nil => simp at hlen
    | cons y t =>
      have hxy : x ≠ y :=
        ne_of_lt ((List.pairwise_cons.mp hs).1 y (List.mem_cons_self y t))
      have hfold : select_pair (x :: y :: t) f =
          (scanPairs (x :: y :: t)).foldl
            (fun b q => if f q.1 q.2 < f b.1 b.2 then q else b) (x, y) := by
        simp only [select_pair, List.headD_cons, List.tail_cons, scanPairs, allPairs]
        rw [nested_guard_eq f (x :: y :: t) (x :: y :: t),
          foldl_guard_filter f, foldl_min_triple f]
      obtain ⟨rest, hhead⟩ : ∃ rest, scanPairs (x :: y :: t) = (x, y) :: rest :=
        ⟨_, scanPairs_head x y t hxy⟩
      have hfold2 : select_pair (x :: y :: t) f =
          rest.foldl (fun b q => if f q.1 q.2 < f b.1 b.2 then q else b) (x, y) := by
        rw [hfold, hhead, List.foldl_cons, if_neg (lt_irrefl _)]
      obtain ⟨l1, l2, hsplit, hstrict, hle⟩ :=
        foldl_min_split (fun p : ℕ × ℕ => f p.1 p.2) rest (x, y)
      rw [← hfold2] at hsplit hstrict hle
      rw [← hhead] at hsplit hle
      exact ⟨l1, l2, hsplit, hstrict, hle⟩

/-- Components of the selected pair: both are in the active list and they
are distinct. -/
theorem select_pair_mem (f : ℕ → ℕ → ℚ) (L : List ℕ)
    (hs : L.Pairwise (· < ·)) (hlen : 2 ≤ L.length) :
    (select_pair L f).1 ∈ L ∧ (select_pair L f).2 ∈ L ∧
      (select_pair L f).1 ≠ (select_pair L f).2 := by
  obtain ⟨ps1, ps2, hsplit, _, _⟩ := select_pair_spec f L hs hlen
  refine scanPairs_mem ?_
  rw [hsplit]
  exact List.mem_append_right _ (List.mem_cons_self _ _)

/-! ### Store-update lemmas -/

theorem dget_eq (d : Store) (i j : ℕ) : dget d i j = (d i j).getD 0 := rfl

theorem dset_app (d : Store) (a b : ℕ) (v : ℚ) (x y : ℕ) :
    dset d a b v x y = if x = a ∧ y = b then some v else d x y := rfl

theorem dset_hit (d : Store) (a b : ℕ) (v : ℚ) : dset d a b v a b = some v := by
  rw [dset_app, if_pos ⟨rfl, rfl⟩]

theorem dset_miss (d : Store) (a b : ℕ) (v : ℚ) (x y : ℕ)
    (h : ¬(x = a ∧ y = b)) : dset d a b v x y = d x y := by
  rw [dset_app, if_neg h]

theorem initRow_app (d : Store) (k x y : ℕ) :
    initRow d k x y = if x = k then (if y ≤ k then some 0 else none) else d x y :=
  rfl

theorem initRow_miss (d : Store) (k x y : ℕ) (h : x ≠ k) :
    initRow d k x y = d x y := by
  rw [initRow_app, if_neg h]

theorem mkStore_app (n : ℕ) (D : ℕ → ℕ → ℚ) (x y : ℕ) :
    mkStore n D x y = if x < n ∧ y < n then some (D x y) else none := rfl

theorem row_update_eq_go (d : Store) (k iMin jMin : ℕ) :
    row_update d k iMin jMin = row_update_go d k iMin jMin (k + 1) := rfl

/-- After `t` steps of the row-extension loop: entries outside row and column
`k` are untouched, and for every processed `m` the entries `(k, m)` and
`(m, k)` hold one common value. -/
theorem row_update_go_spec (d : Store) (k iMin jMin : ℕ) : ∀ t : ℕ,
    (∀ x y, ¬(x = k ∧ y < t) → ¬(y = k ∧ x < t) →
      row_update_go d k iMin jMin t x y = d x y) ∧
    (∀ m, m < t → ∃ v, row_update_go d k iMin jMin t k m = some v ∧
      row_update_go d k iMin jMin t m k = some v) := by
  intro t
  induction t with
  | zero =>
    refine ⟨fun x y _ _ => rfl, fun m hm => absurd hm (by omega)⟩
  | succ t ih =>
    obtain ⟨ihf, ihs⟩ := ih
    have hstep : ∀ x y, row_update_go d k iMin jMin (t + 1) x y =
        dset (dset (row_update_go d k iMin jMin t) k t
            ((1 / 2 : ℚ) * (dget (row_update_go d k iMin jMin t) iMin t +
              dget (row_update_go d k iMin jMin t) jMin t -
              dget (row_update_go d k iMin jMin t) iMin jMin)))
          t k ((1 / 2 : ℚ) * (dget (row_update_go d k iMin jMin t) iMin t +
              dget (row_update_go d k iMin jMin t) jMin t -
              dget (row_update_go d k iMin jMin t) iMin jMin)) x y := by
      intro x y
      simp only [row_update_go, List.range_succ, List.foldl_append,
        List.foldl_cons, List.foldl_nil]
    refine ⟨?_, ?_⟩
    · intro x y hx hy
      rw [hstep, dset_miss _ _ _ _ _ _ (fun hc => hy ⟨hc.2, by omega⟩),
        dset_miss _ _ _ _ _ _ (fun hc => hx ⟨hc.1, by omega⟩)]
      exact ihf x y (fun hc => hx ⟨hc.1, by omega⟩) (fun hc => hy ⟨hc.1, by omega⟩)
    · intro m hm
      by_cases hmt : m = t
      · rw [hmt]
        refine ⟨(1 / 2 : ℚ) * (dget (row_update_go d k iMin jMin t) iMin t +
            dget (row_update_go d k iMin jMin t) jMin t -
            dget (row_update_go d k iMin jMin t) iMin jMin), ?_, ?_⟩
        · by_cases hkm : k = t
          · rw [hstep, dset_app, if_pos ⟨hkm, hkm.symm⟩]
          · rw [hstep, dset_miss _ _ _ _ _ _ (fun hc => hkm hc.1)]
            exact dset_hit _ _ _ _
        · rw [hstep]
          exact dset_hit _ _ _ _
      · have hmlt : m < t := by omega
        obtain ⟨v, hv1, hv2⟩ := ihs m hmlt
        refine ⟨v, ?_, ?_⟩
        · rw [hstep, dset_miss _ _ _ _ _ _ (fun hc => hmt (by omega : m = t)),
            dset_miss _ _ _ _ _ _ (fun hc => hmt hc.2)]
          exact hv1
        · rw [hstep, dset_miss _ _ _ _ _ _ (fun hc => hmt hc.1),
            dset_miss _ _ _ _ _ _ (fun hc => hmt (by omega : m = t))]
          exact hv2

/-- Entries outside row and column `k` are untouched by one iteration's
store updates. -/
theorem stepStore_frame (d : Store) (L : List ℕ) (iMin jMin k : ℕ) :
    ∀ x y, x ≠ k → y ≠ k → stepStore d L iMin jMin k x y = d x y := by
  intro x y hx hy
  show dset _ k k 0 x y = d x y
  rw [dset_miss _ _ _ _ _ _ (fun hc => hx hc.1),
    dset_miss _ _ _ _ _ _ (fun hc => hx hc.1),
    dset_miss _ _ _ _ _ _ (fun hc => hx hc.1),
    dset_miss _ _ _ _ _ _ (fun hc => hy hc.2),
    dset_miss _ _ _ _ _ _ (fun hc => hy hc.2),
    row_update_eq_go,
    (row_update_go_spec (initRow d k) k iMin jMin (k + 1)).1 x y
      (fun hc => hx hc.1) (fun hc => hy hc.1),
    initRow_miss _ _ _ _ hx]

/-- The diagonal entry of the new row is zero. -/
theorem stepStore_kk (d : Store) (L : List ℕ) (iMin jMin k : ℕ) :
    stepStore d L iMin jMin k k k = some 0 := by
  show dset _ k k 0 k k = some 0
  exact dset_hit _ _ _ _

/-- Beyond column `k` the new row is absent, and rows beyond `k` are
untouched. -/
theorem stepStore_high (d : Store) (L : List ℕ) (iMin jMin k : ℕ)
    (hik : iMin < k) (hjk : jMin < k) :
    ∀ y, k < y → stepStore d L iMin jMin k k y = none ∧
      stepStore d L iMin jMin k y k = d y k := by
  intro y hy
  constructor
  · show dset _ k k 0 k y = none
    rw [dset_miss _ _ _ _ _ _ (fun hc => absurd hc.2 (by omega)),
      dset_miss _ _ _ _ _ _ (fun hc => absurd hc.2 (by omega)),
      dset_miss _ _ _ _ _ _ (fun hc => absurd hc.2 (by omega)),
      dset_miss _ _ _ _ _ _ (fun hc => absurd hc.1 (by omega)),
      dset_miss _ _ _ _ _ _ (fun hc => absurd hc.1 (by omega)),
      row_update_eq_go,
      (row_update_go_spec (initRow d k) k iMin jMin (k + 1)).1 k y
        (fun hc => absurd hc.2 (by omega)) (fun hc => absurd hc.1 (by omega)),
      initRow_app, if_pos rfl, if_neg (by omega)]
  · show dset _ k k 0 y k = d y k
    rw [dset_miss _ _ _ _ _ _ (fun hc => absurd hc.1 (by omega)),
      dset_miss _ _ _ _ _ _ (fun hc => absurd hc.1 (by omega)),
      dset_miss _ _ _ _ _ _ (fun hc => absurd hc.1 (by omega)),
      dset_miss _ _ _ _ _ _ (fun hc => absurd hc.1 (by omega)),
      dset_miss _ _ _ _ _ _ (fun hc => absurd hc.1 (by omega)),
      row_update_eq_go,
      (row_update_go_spec (initRow d k) k iMin jMin (k + 1)).1 y k
        (fun hc => absurd hc.1 (by omega)) (fun hc => absurd hc.2 (by omega)),
      initRow_miss _ _ _ _ (by omega)]

/-- Every entry `(k, b)` and `(b, k)` with `b < k` holds one common present
value after one iteration's store updates. -/
theorem stepStore_some (d : Store) (L : List ℕ) (iMin jMin k : ℕ)
    (hik : iMin < k) (hjk : jMin < k) (hij : iMin ≠ jMin) :
    ∀ b, b < k → ∃ v, stepStore d L iMin jMin k k b = some v ∧
      stepStore d L iMin jMin k b k = some v := by
  intro b hb
  by_cases hbi : b = iMin
  · rw [hbi]
    refine ⟨(1 / 2 : ℚ) * (dget (row_update (initRow d k) k iMin jMin) iMin jMin +
      divergence L d iMin - divergence L d jMin), ?_, ?_⟩
    · show dset _ k k 0 k iMin = _
      rw [dset_miss _ _ _ _ _ _ (fun hc : k = k ∧ iMin = k => absurd hc.2 (by omega)),
        dset_miss _ _ _ _ _ _ (fun hc : k = k ∧ iMin = jMin => hij hc.2),
        dset_hit, dget_eq,
        dset_miss _ _ _ _ _ _ (fun hc : iMin = jMin ∧ k = k => hij hc.1),
        dset_hit, Option.getD_some]
    · show dset _ k k 0 iMin k = _
      rw [dset_miss _ _ _ _ _ _ (fun hc : iMin = k ∧ k = k => absurd hc.1 (by omega)),
        dset_miss _ _ _ _ _ _ (fun hc : iMin = k ∧ k = jMin => absurd hc.1 (by omega)),
        dset_miss _ _ _ _ _ _ (fun hc : iMin = k ∧ k = iMin => absurd hc.1 (by omega)),
        dset_miss _ _ _ _ _ _ (fun hc : iMin = jMin ∧ k = k => hij hc.1),
        dset_hit]
  · by_cases hbj : b = jMin
    · rw [hbj]
      refine ⟨dget (dset (row_update (initRow d k) k iMin jMin) iMin k
          ((1 / 2 : ℚ) * (dget (row_update (initRow d k) k iMin jMin) iMin jMin +
            divergence L d iMin - divergence L d jMin))) iMin jMin -
        dget (dset (row_update (initRow d k) k iMin jMin) iMin k
          ((1 / 2 : ℚ) * (dget (row_update (initRow d k) k iMin jMin) iMin jMin +
            divergence L d iMin - divergence L d jMin))) iMin k, ?_, ?_⟩
      · show dset _ k k 0 k jMin = _
        rw [dset_miss _ _ _ _ _ _ (fun hc : k = k ∧ jMin = k => absurd hc.2 (by omega)),
          dset_hit, dget_eq,
          dset_miss _ _ _ _ _ _ (fun hc : jMin = k ∧ k = iMin => absurd hc.1 (by omega)),
          dset_hit, Option.getD_some]
      · show dset _ k k 0 jMin k = _
        rw [dset_miss _ _ _ _ _ _ (fun hc : jMin = k ∧ k = k => absurd hc.1 (by omega)),
          dset_miss _ _ _ _ _ _ (fun hc : jMin = k ∧ k = jMin => absurd hc.1 (by omega)),
          dset_miss _ _ _ _ _ _ (fun hc : jMin = k ∧ k = iMin => absurd hc.1 (by omega)),
          dset_hit]
    · obtain ⟨v, hv1, hv2⟩ :=
        (row_update_go_spec (initRow d k) k iMin jMin (k + 1)).2 b (by omega)
      refine ⟨v, ?_, ?_⟩
      · show dset _ k k 0 k b = some v
        rw [dset_miss _ _ _ _ _ _ (fun hc : k = k ∧ b = k => absurd hc.2 (by omega)),
          dset_miss _ _ _ _ _ _ (fun hc : k = k ∧ b = jMin => hbj hc.2),
          dset_miss _ _ _ _ _ _ (fun hc : k = k ∧ b = iMin => hbi hc.2),
          dset_miss _ _ _ _ _ _ (fun hc : k = jMin ∧ b = k => absurd hc.1 (by omega)),
          dset_miss _ _ _ _ _ _ (fun hc : k = iMin ∧ b = k => absurd hc.1 (by omega)),
          row_update_eq_go]
        exact hv1
      · show dset _ k k 0 b k = some v
        rw [dset_miss _ _ _ _ _ _ (fun hc : b = k ∧ k = k => absurd hc.1 (by omega)),
          dset_miss _ _ _ _ _ _ (fun hc : b = k ∧ k = jMin => absurd hc.1 (by omega)),
          dset_miss _ _ _ _ _ _ (fun hc : b = k ∧ k = iMin => absurd hc.1 (by omega)),
          dset_miss _ _ _ _ _ _ (fun hc : b = jMin ∧ k = k => hbj hc.1),
          dset_miss _ _ _ _ _ _ (fun hc : b = iMin ∧ k = k => hbi hc.1),
          row_update_eq_go]
        exact hv2

/-! ### The loop invariant of `neighbor_join` -/

theorem njStep_L (s : NJState) : (njStep s).L =
    (s.L.erase (select_pair s.L (qscore s.L s.d)).1).erase
      (select_pair s.L (qscore s.L s.d)).2 ++ [s.k] := rfl

theorem njStep_k (s : NJState) : (njStep s).k = s.k + 1 := rfl

theorem njStep_edges (s : NJState) : (njStep s).edges =
    s.edges ++ [((select_pair s.L (qscore s.L s.d)).1, s.k),
      ((select_pair s.L (qscore s.L s.d)).2, s.k)] := rfl

theorem njStep_d (s : NJState) : (njStep s).d =
    stepStore s.d s.L (select_pair s.L (qscore s.L s.d)).1
      (select_pair s.L (qscore s.L s.d)).2 s.k := rfl

theorem njStep_inv {n : ℕ} {s : NJState} (h : Inv n s)
    (hlen : 2 < s.L.length) : Inv n (njStep s) := by
  obtain ⟨hm1, hm2, hne⟩ :=
    select_pair_mem (qscore s.L s.d) s.L h.sorted (by omega)
  have hik : (select_pair s.L (qscore s.L s.d)).1 < s.k := h.bound _ hm1
  have hjk : (select_pair s.L (qscore s.L s.d)).2 < s.k := h.bound _ hm2
  have hmem2 : (select_pair s.L (qscore s.L s.d)).2 ∈
      s.L.erase (select_pair s.L (qscore s.L s.d)).1 :=
    (List.mem_erase_of_ne hne.symm).mpr hm2
  have herasesub : ∀ x, x ∈ (s.L.erase (select_pair s.L (qscore s.L s.d)).1).erase
      (select_pair s.L (qscore s.L s.d)).2 → x ∈ s.L := fun x hx =>
    List.mem_of_mem_erase (List.mem_of_mem_erase hx)
  have hlen2 : ((s.L.erase (select_pair s.L (qscore s.L s.d)).1).erase
      (select_pair s.L (qscore s.L s.d)).2).length = s.L.length - 2 := by
    rw [List.length_erase_of_mem hmem2, List.length_erase_of_mem hm1]
    omega
  refine ⟨?_, ?_, ?_, ?_, ?_, ?_, ?_, ?_, ?_, ?_, ?_⟩
  · rw [njStep_L, List.pairwise_append]
    refine ⟨List.Pairwise.sublist
      ((List.erase_sublist _ _).trans (List.erase_sublist _ _)) h.sorted,
      List.pairwise_singleton _ _, ?_⟩
    intro x hx y hy
    rw [List.mem_singleton.mp hy]
    exact h.bound x (herasesub x hx)
  · rw [njStep_L, njStep_k]
    intro x hx
    rcases List.mem_append.mp hx with hx | hx
    · exact lt_trans (h.bound x (herasesub x hx)) (by omega)
    · rw [List.mem_singleton.mp hx]; omega
  · rw [njStep_k]; exact le_trans h.kn (by omega)
  · rw [njStep_L, njStep_k, List.length_append, hlen2]
    have := h.lenk
    simp only [List.length_singleton]
    omega
  · rw [njStep_edges, njStep_k, List.length_append]
    have := h.elen
    have := h.kn
    simp only [List.length_cons, List.length_singleton, List.length_nil]
    omega
  · rw [njStep_edges, njStep_k]
    intro e he
    rcases List.mem_append.mp he with he | he
    · obtain ⟨he1, he2⟩ := h.ebound e he
      exact ⟨by omega, by omega⟩
    · rcases List.mem_cons.mp he with rfl | he
      · exact ⟨by omega, by omega⟩
      · rw [List.mem_singleton.mp he]
        exact ⟨by omega, by omega⟩
  · rw [njStep_L, njStep_edges, njStep_k]
    intro m hm
    by_cases hmk : m = s.k
    · refine Or.inl (List.mem_append.mpr (Or.inr ?_))
      rw [hmk]
      exact List.mem_singleton_self s.k
    · rcases h.cover m (by omega) with hmL | ⟨e, he, hor⟩
      · by_cases hm1' : m = (select_pair s.L (qscore s.L s.d)).1
        · refine Or.inr ⟨((select_pair s.L (qscore s.L s.d)).1, s.k), ?_, Or.inl hm1'.symm⟩
          exact List.mem_append.mpr (Or.inr (List.mem_cons_self _ _))
        · by_cases hm2' : m = (select_pair s.L (qscore s.L s.d)).2
          · refine Or.inr ⟨((select_pair s.L (qscore s.L s.d)).2, s.k), ?_, Or.inl hm2'.symm⟩
            refine List.mem_append.mpr (Or.inr (List.mem_cons_of_mem _ ?_))
            exact List.mem_singleton_self _
          · refine Or.inl (List.mem_append.mpr (Or.inl ?_))
            exact (List.mem_erase_of_ne hm2').mpr ((List.mem_erase_of_ne hm1').mpr hmL)
      · exact Or.inr ⟨e, List.mem_append.mpr (Or.inl he), hor⟩
  · rw [njStep_d, njStep_k]
    intro a b ha hb
    by_cases hak : a = s.k
    · by_cases hbk : b = s.k
      · rw [hak, hbk, stepStore_kk]; rfl
      · rw [hak]
        obtain ⟨v, hv1, _⟩ := stepStore_some s.d s.L _ _ s.k hik hjk hne b
          (by omega)
        rw [hv1]; rfl
    · by_cases hbk : b = s.k
      · rw [hbk]
        obtain ⟨v, _, hv2⟩ := stepStore_some s.d s.L _ _ s.k hik hjk hne a
          (by omega)
        rw [hv2]; rfl
      · rw [stepStore_frame s.d s.L _ _ s.k a b hak hbk]
        exact h.dsome a b (by omega) (by omega)
  · rw [njStep_d, njStep_k]
    intro a b hab
    by_cases hak : a = s.k
    · rcases hab with hab | hab
      · omega
      · rw [hak]
        exact (stepStore_high s.d s.L _ _ s.k hik hjk b (by omega)).1
    · by_cases hbk : b = s.k
      · rcases hab with hab | hab
        · rw [hbk]
          rw [(stepStore_high s.d s.L _ _ s.k hik hjk a (by omega)).2]
          exact h.dnone a s.k (Or.inl (by omega))
        · omega
      · rw [stepStore_frame s.d s.L _ _ s.k a b hak hbk]
        rcases hab with hab | hab
        · exact h.dnone a b (Or.inl (by omega))
        · exact h.dnone a b (Or.inr (by omega))
  · rw [njStep_d]
    intro a b
    by_cases hak : a = s.k
    · by_cases hbk : b = s.k
      · rw [hak, hbk]
      · by_cases hblt : b < s.k
        · obtain ⟨v, hv1, hv2⟩ := stepStore_some s.d s.L _ _ s.k hik hjk hne b hblt
          rw [hak, dget_eq, dget_eq, hv1, hv2]
        · rw [hak, dget_eq, dget_eq,
            (stepStore_high s.d s.L _ _ s.k hik hjk b (by omega)).1,
            (stepStore_high s.d s.L _ _ s.k hik hjk b (by omega)).2,
            h.dnone b s.k (Or.inl (by omega))]
    · by_cases hbk : b = s.k
      · by_cases halt : a < s.k
        · obtain ⟨v, hv1, hv2⟩ := stepStore_some s.d s.L _ _ s.k hik hjk hne a halt
          rw [hbk, dget_eq, dget_eq, hv1, hv2]
        · rw [hbk, dget_eq, dget_eq,
            (stepStore_high s.d s.L _ _ s.k hik hjk a (by omega)).1,
            (stepStore_high s.d s.L _ _ s.k hik hjk a (by omega)).2,
            h.dnone a s.k (Or.inl (by omega))]
      · rw [dget_eq, dget_eq, stepStore_frame s.d s.L _ _ s.k a b hak hbk,
          stepStore_frame s.d s.L _ _ s.k b a hbk hak, ← dget_eq, ← dget_eq]
        exact h.dsymm a b
  · rw [njStep_d]
    intro a
    by_cases hak : a = s.k
    · rw [hak, dget_eq, stepStore_kk]; rfl
    · rw [dget_eq, stepStore_frame s.d s.L _ _ s.k a a hak hak, ← dget_eq]
      exact h.ddiag a

theorem njStep_len {n : ℕ} {s : NJState} (h : Inv n s)
    (hlen : 2 < s.L.length) : (njStep s).L.length = s.L.length - 1 := by
  obtain ⟨hm1, hm2, hne⟩ :=
    select_pair_mem (qscore s.L s.d) s.L h.sorted (by omega)
  have hmem2 : (select_pair s.L (qscore s.L s.d)).2 ∈
      s.L.erase (select_pair s.L (qscore s.L s.d)).1 :=
    (List.mem_erase_of_ne hne.symm).mpr hm2
  rw [njStep_L, List.length_append, List.length_erase_of_mem hmem2,
    List.length_erase_of_mem hm1, List.length_singleton]
  omega

theorem njLoop_inv {n : ℕ} (fuel : ℕ) : ∀ s : NJState, Inv n s →
    Inv n (njLoop fuel s) := by
  induction fuel with
  | zero => exact fun s h => h
  | succ f ih =>
    intro s h
    rw [njLoop]
    split
    · exact ih (njStep s) (njStep_inv h (by assumption))
    · exact h

theorem njLoop_reach {n : ℕ} (fuel : ℕ) : ∀ s : NJState, Inv n s →
    2 ≤ s.L.length → s.L.length ≤ fuel + 2 →
    (njLoop fuel s).L.length = 2 := by
  induction fuel with
  | zero =>
    intro s _ h2 hf
    rw [njLoop]
    omega
  | succ f ih =>
    intro s h h2 hf
    rw [njLoop]
    split
    · have hl := njStep_len h (by assumption)
      exact ih (njStep s) (njStep_inv h (by assumption)) (by omega) (by omega)
    · omega

theorem inv_init (n : ℕ) (D : ℕ → ℕ → ℚ)
    (hsym : ∀ i j, D i j = D j i) (hdiag : ∀ i, D i i = 0) :
    Inv n (initState n (mkStore n D)) := by
  refine ⟨?_, ?_, ?_, ?_, ?_, ?_, ?_, ?_, ?_, ?_, ?_⟩
  · exact List.sorted_lt_range n
  · exact fun x hx => List.mem_range.mp hx
  · exact le_refl n
  · simp [initState]; omega
  · simp [initState]
  · exact fun e he => absurd he (List.not_mem_nil e)
  · exact fun m hm => Or.inl (List.mem_range.mpr hm)
  · intro a b ha hb
    rw [show (initState n (mkStore n D)).d = mkStore n D from rfl,
      mkStore_app, if_pos ⟨ha, hb⟩]
    rfl
  · intro a b hab
    have hk : (initState n (mkStore n D)).k = n := rfl
    rw [hk] at hab
    rw [show (initState n (mkStore n D)).d = mkStore n D from rfl, mkStore_app]
    rcases hab with h | h <;> exact if_neg (fun hc => by omega)
  · intro a b
    rw [show (initState n (mkStore n D)).d = mkStore n D from rfl,
      dget_eq, dget_eq, mkStore_app, mkStore_app]
    by_cases h : a < n ∧ b < n
    · rw [if_pos h, if_pos ⟨h.2, h.1⟩, Option.getD_some, Option.getD_some]
      exact hsym a b
    · rw [if_neg h, if_neg (fun hc => h ⟨hc.2, hc.1⟩)]
  · intro a
    rw [show (initState n (mkStore n D)).d = mkStore n D from rfl,
      dget_eq, mkStore_app]
    by_cases h : a < n ∧ a < n
    · rw [if_pos h, Option.getD_some]
      exact hdiag a
    · rw [if_neg h]; rfl

/-- The reduction loop never touches an entry between two ids below `n`:
every write of an iteration involves the fresh id `k ≥ n`. -/
theorem njLoop_frame (n : ℕ) (d0 : Store) (fuel : ℕ) : ∀ s : NJState,
    n ≤ s.k → (∀ a b, a < n → b < n → s.d a b = d0 a b) →
    n ≤ (njLoop fuel s).k ∧
      ∀ a b, a < n → b < n → (njLoop fuel s).d a b = d0 a b := by
  induction fuel with
  | zero => exact fun s hk hf => ⟨hk, hf⟩
  | succ f ih =>
    intro s hk hf
    rw [njLoop]
    split
    · refine ih (njStep s) (by rw [njStep_k]; omega) ?_
      intro a b ha hb
      rw [njStep_d, stepStore_frame s.d s.L _ _ s.k a b (by omega) (by omega)]
      exact hf a b ha hb
    · exact ⟨hk, hf⟩

/-- Final-state packaging for a symmetric zero-diagonal input with `n ≥ 2`
leaves: the loop (run with fuel `n`) ends with exactly two active ids `a < b`,
the fresh id equals `2n - 2`, the invariant holds, and `neighbor_join`
returns the loop's edges followed by the final edge `(a, b)` together with
the loop's store. -/
theorem nj_final (n : ℕ) (D : ℕ → ℕ → ℚ) (hn : 2 ≤ n)
    (hsym : ∀ i j, D i j = D j i) (hdiag : ∀ i, D i i = 0) :
    Inv n (njLoop n (initState n (mkStore n D))) ∧
    (njLoop n (initState n (mkStore n D))).k = 2 * n - 2 ∧
    ∃ a b, a < b ∧ (njLoop n (initState n (mkStore n D))).L = [a, b] ∧
      neighbor_join n (mkStore n D) =
        some ((njLoop n (initState n (mkStore n D))).edges ++ [(a, b)],
          (njLoop n (initState n (mkStore n D))).d) := by
  have h0 := inv_init n D hsym hdiag
  have hInv := njLoop_inv n _ h0
  have hlen0 : (initState n (mkStore n D)).L.length = n := by
    simp [initState]
  have hlen2 : (njLoop n (initState n (mkStore n D))).L.length = 2 :=
    njLoop_reach n _ h0 (by omega) (by omega)
  have hk : (njLoop n (initState n (mkStore n D))).k = 2 * n - 2 := by
    have := hInv.lenk
    omega
  obtain ⟨a, b, hab⟩ := List.length_eq_two.mp hlen2
  have haltb : a < b := by
    have := hInv.sorted
    rw [hab] at this
    exact (List.pairwise_cons.mp this).1 b (List.mem_cons_self b [])
  refine ⟨hInv, hk, a, b, haltb, hab, ?_⟩
  show (if 2 < (njLoop n (initState n (mkStore n D))).L.length then none
    else match (njLoop n (initState n (mkStore n D))).L with
      | a :: b :: _ => some ((njLoop n (initState n (mkStore n D))).edges
          ++ [(a, b)], (njLoop n (initState n (mkStore n D))).d)
      | _ => none) = _
  rw [hab]
  simp

/-! ### Claim theorems -/

set_option maxRecDepth 1000000

theorem Dex_symm : ∀ i j, Dex i j = Dex j i := by
  intro i j
  unfold Dex
  by_cases h : i = j
  · rw [if_pos h, if_pos h.symm]
  · rw [if_neg h, if_neg (fun hc => h hc.symm)]

theorem Dex_diag : ∀ i, Dex i i = 0 := fun i => by
  unfold Dex
  rw [if_pos rfl]

/-- Claim C1: in a reduction-loop iteration (active list strictly ascending,
more than two active ids), the merge pair appended to the edge list is the
pair selected by the scan, and that pair is the first pair, in the
lexicographically ascending nested-scan order over active pairs, attaining
the minimum of `Q i j = d i j - (r i + r j)` with
`r i = Σ_{j active} d i j / (|L| - 2)`: all earlier scanned pairs score
strictly higher (so among ties the first in scan order wins) and no scanned
pair scores lower.  `njLoop` preserves the two hypotheses (`njStep_inv`), so
they hold in every iteration. -/
theorem c1_first_min_pair (s : NJState)
    (hs : s.L.Pairwise (· < ·)) (hlen : 2 < s.L.length) :
    (njStep s).edges = s.edges ++
      [((select_pair s.L (qscore s.L s.d)).1, s.k),
        ((select_pair s.L (qscore s.L s.d)).2, s.k)] ∧
    (scanPairs s.L).Pairwise pairLt ∧
    ∃ ps1 ps2,
      scanPairs s.L = ps1 ++ (select_pair s.L (qscore s.L s.d)) :: ps2 ∧
      (∀ p ∈ ps1, qscore s.L s.d (select_pair s.L (qscore s.L s.d)).1
        (select_pair s.L (qscore s.L s.d)).2 < qscore s.L s.d p.1 p.2) ∧
      ∀ p ∈ scanPairs s.L,
        qscore s.L s.d (select_pair s.L (qscore s.L s.d)).1
          (select_pair s.L (qscore s.L s.d)).2 ≤ qscore s.L s.d p.1 p.2 :=
  ⟨njStep_edges s, scanPairs_pairwise hs,
    select_pair_spec (qscore s.L s.d) s.L hs (by omega)⟩

theorem c1_first_min_pair_witness :
    (njStep (initState 3 (mkStore 3 Dex))).edges =
      (initState 3 (mkStore 3 Dex)).edges ++
        [((select_pair (initState 3 (mkStore 3 Dex)).L
            (qscore (initState 3 (mkStore 3 Dex)).L (initState 3 (mkStore 3 Dex)).d)).1,
          (initState 3 (mkStore 3 Dex)).k),
          ((select_pair (initState 3 (mkStore 3 Dex)).L
            (qscore (initState 3 (mkStore 3 Dex)).L (initState 3 (mkStore 3 Dex)).d)).2,
          (initState 3 (mkStore 3 Dex)).k)] ∧
    (scanPairs (initState 3 (mkStore 3 Dex)).L).Pairwise pairLt ∧
    ∃ ps1 ps2,
      scanPairs (initState 3 (mkStore 3 Dex)).L = ps1 ++
        (select_pair (initState 3 (mkStore 3 Dex)).L
          (qscore (initState 3 (mkStore 3 Dex)).L (initState 3 (mkStore 3 Dex)).d)) :: ps2 ∧
      (∀ p ∈ ps1, qscore (initState 3 (mkStore 3 Dex)).L (initState 3 (mkStore 3 Dex)).d
          (select_pair (initState 3 (mkStore 3 Dex)).L
            (qscore (initState 3 (mkStore 3 Dex)).L (initState 3 (mkStore 3 Dex)).d)).1
          (select_pair (initState 3 (mkStore 3 Dex)).L
            (qscore (initState 3 (mkStore 3 Dex)).L (initState 3 (mkStore 3 Dex)).d)).2 <
        qscore (initState 3 (mkStore 3 Dex)).L (initState 3 (mkStore 3 Dex)).d p.1 p.2) ∧
      ∀ p ∈ scanPairs (initState 3 (mkStore 3 Dex)).L,
        qscore (initState 3 (mkStore 3 Dex)).L (initState 3 (mkStore 3 Dex)).d
          (select_pair (initState 3 (mkStore 3 Dex)).L
            (qscore (initState 3 (mkStore 3 Dex)).L (initState 3 (mkStore 3 Dex)).d)).1
          (select_pair (initState 3 (mkStore 3 Dex)).L
            (qscore (initState 3 (mkStore 3 Dex)).L (initState 3 (mkStore 3 Dex)).d)).2 ≤
        qscore (initState 3 (mkStore 3 Dex)).L (initState 3 (mkStore 3 Dex)).d p.1 p.2 :=
  c1_first_min_pair (initState 3 (mkStore 3 Dex))
    (List.sorted_lt_range 3) (by decide)

/-- Claim C2: for every symmetric zero-diagonal matrix over ids 0..n-1 with
n at least 3, neighbor_join succeeds and returns exactly 2n-3 edges; the ids
occurring in edges are exactly 0..2n-3 (so exactly the n-2 synthetic ids
n..2n-3 are created, the fresh-id counter ending at 2n-2); and the last edge
directly connects the final two remaining active ids, creating no new id. -/
theorem c2_edge_count (n : ℕ) (D : ℕ → ℕ → ℚ) (hn : 3 ≤ n)
    (hsym : ∀ i j, D i j = D j i) (hdiag : ∀ i, D i i = 0) :
    ∃ es d2, neighbor_join n (mkStore n D) = some (es, d2) ∧
      es.length = 2 * n - 3 ∧
      (∀ e ∈ es, e.1 < 2 * n - 2 ∧ e.2 < 2 * n - 2) ∧
      (∀ m, m < 2 * n - 2 → ∃ e ∈ es, e.1 = m ∨ e.2 = m) ∧
      (njLoop n (initState n (mkStore n D))).k = 2 * n - 2 ∧
      ∃ a b, a < b ∧ (njLoop n (initState n (mkStore n D))).L = [a, b] ∧
        es.getLast? = some (a, b) := by
  obtain ⟨hInv, hk, a, b, hab, hL, hnj⟩ := nj_final n D (by omega) hsym hdiag
  have hmemA : a ∈ (njLoop n (initState n (mkStore n D))).L := by
    rw [hL]; exact List.mem_cons_self a [b]
  have hmemB : b ∈ (njLoop n (initState n (mkStore n D))).L := by
    rw [hL]; exact List.mem_cons_of_mem a (List.mem_cons_self b [])
  refine ⟨_, _, hnj, ?_, ?_, ?_, hk, a, b, hab, hL, ?_⟩
  · rw [List.length_append, List.length_singleton, hInv.elen, hk]
    omega
  · intro e he
    rcases List.mem_append.mp he with he | he
    · obtain ⟨h1, h2⟩ := hInv.ebound e he
      rw [hk] at h1 h2
      exact ⟨h1, h2⟩
    · rw [List.mem_singleton.mp he]
      have ha := hInv.bound a hmemA
      have hb := hInv.bound b hmemB
      rw [hk] at ha hb
      exact ⟨ha, hb⟩
  · intro m hm
    rcases hInv.cover m (by omega) with hmL | ⟨e, he, hor⟩
    · rw [hL] at hmL
      rcases List.mem_cons.mp hmL with rfl | hmL
      · exact ⟨(m, b), List.mem_append_right _ (List.mem_singleton_self _), Or.inl rfl⟩
      · rw [List.mem_singleton.mp hmL]
        exact ⟨(a, b), List.mem_append_right _ (List.mem_singleton_self _), Or.inr rfl⟩
    · exact ⟨e, List.mem_append_left _ he, hor⟩
  · exact List.getLast?_concat _

theorem c2_edge_count_witness :
    ∃ es d2, neighbor_join 3 (mkStore 3 Dex) = some (es, d2) ∧
      es.length = 2 * 3 - 3 ∧
      (∀ e ∈ es, e.1 < 2 * 3 - 2 ∧ e.2 < 2 * 3 - 2) ∧
      (∀ m, m < 2 * 3 - 2 → ∃ e ∈ es, e.1 = m ∨ e.2 = m) ∧
      (njLoop 3 (initState 3 (mkStore 3 Dex))).k = 2 * 3 - 2 ∧
      ∃ a b, a < b ∧ (njLoop 3 (initState 3 (mkStore 3 Dex))).L = [a, b] ∧
        es.getLast? = some (a, b) :=
  c2_edge_count 3 Dex (by omega) Dex_symm Dex_diag

/-- Claim C5 counterexample: with exactly two leaves the reducer does not
fail at all (the claim asserts every input with fewer than three leaves is
rejected with a domain error before the loop): it returns a value. -/
theorem c5_counterexample :
    (neighbor_join 2 (mkStore 2 (fun _ _ => 0))).isSome = true := rfl

/-- Claim C5 (amended): the reducer performs no input-size validation and
the divergence division is never reached for fewer than three leaves, since
the loop body requires more than two active ids.  For two leaves it succeeds,
returning the single direct edge (0, 1) and the unmodified store; for zero or
one leaves it fails only at the final edge construction (an index error on
`L[1]` after the skipped loop), not as a pre-loop domain-error rejection. -/
theorem c5_amended :
    (∀ d0 : Store, neighbor_join 0 d0 = none) ∧
    (∀ d0 : Store, neighbor_join 1 d0 = none) ∧
    ∀ D : ℕ → ℕ → ℚ,
      neighbor_join 2 (mkStore 2 D) = some ([(0, 1)], mkStore 2 D) :=
  ⟨fun _ => rfl, fun _ => rfl, fun _ => rfl⟩

/-- Claim C6: for a symmetric zero-diagonal matrix over ids 0 and 1, the
reducer executes no merge iteration, raises no division-by-zero error, and
returns exactly the single direct edge (0, 1) together with the input store,
unmodified. -/
theorem c6_two_leaf_direct_edge (D : ℕ → ℕ → ℚ)
    (hsym : ∀ i j, D i j = D j i) (hdiag : ∀ i, D i i = 0) :
    neighbor_join 2 (mkStore 2 D) = some ([(0, 1)], mkStore 2 D) := rfl

theorem c6_two_leaf_direct_edge_witness :
    neighbor_join 2 (mkStore 2 (fun _ _ => 0)) =
      some ([(0, 1)], mkStore 2 (fun _ _ => 0)) :=
  c6_two_leaf_direct_edge (fun _ _ => 0) (fun _ _ => rfl) (fun _ => rfl)

/-- Claim C7: after neighbor_join returns on a symmetric zero-diagonal input
over 0..n-1 with n at least 3, the extended store is defined on every pair of
ids up to 2n-3, symmetric, and zero on the diagonal. -/
theorem c7_store_invariants (n : ℕ) (D : ℕ → ℕ → ℚ) (hn : 3 ≤ n)
    (hsym : ∀ i j, D i j = D j i) (hdiag : ∀ i, D i i = 0) :
    ∃ es d2, neighbor_join n (mkStore n D) = some (es, d2) ∧
      ∀ a b, a < 2 * n - 2 → b < 2 * n - 2 →
        (d2 a b).isSome = true ∧ dget d2 a b = dget d2 b a ∧
          dget d2 a a = 0 := by
  obtain ⟨hInv, hk, a, b, hab, hL, hnj⟩ := nj_final n D (by omega) hsym hdiag
  refine ⟨_, _, hnj, ?_⟩
  intro x y hx hy
  rw [← hk] at hx hy
  exact ⟨hInv.dsome x y hx hy, hInv.dsymm x y, hInv.ddiag x⟩

theorem c7_store_invariants_witness :
    ∃ es d2, neighbor_join 3 (mkStore 3 Dex) = some (es, d2) ∧
      ∀ a b, a < 2 * 3 - 2 → b < 2 * 3 - 2 →
        (d2 a b).isSome = true ∧ dget d2 a b = dget d2 b a ∧
          dget d2 a a = 0 :=
  c7_store_invariants 3 Dex (by omega) Dex_symm Dex_diag

/-- Claim C8: on the 4-leaf two-cherries matrix (close pairs (0,1) and (2,3)
at distance 1, all cross distances 10), the reducer merges 0 with 1 into
node 4 and 2 with 3 into node 5, never a cross pair, producing exactly the
edge list [(0,4), (1,4), (2,5), (3,5), (4,5)]. -/
theorem c8_two_cherries :
    (neighbor_join 4 (mkStore 4 Dpairs)).map Prod.fst =
      some [(0, 4), (1, 4), (2, 5), (3, 5), (4, 5)] := by
  with_unfolding_all decide

/-- Claim C10: the reducer never overwrites a pre-existing entry between two
original leaf ids: for every input store over 0..n-1, whenever neighbor_join
returns, the returned store agrees with the input store on every pair of ids
below n (every write of the loop involves the fresh id k, and k is at least
n throughout). -/
theorem c10_leaf_frame (n : ℕ) (d0 : Store) (es : List (ℕ × ℕ)) (d2 : Store)
    (i j : ℕ) (hi : i < n) (hj : j < n)
    (h : neighbor_join n d0 = some (es, d2)) : d2 i j = d0 i j := by
  have hf := njLoop_frame n d0 n (initState n d0) (le_refl n)
    (fun a b _ _ => rfl)
  have hd : d2 = (njLoop n (initState n d0)).d := by
    have h2 : (if 2 < (njLoop n (initState n d0)).L.length then none
        else match (njLoop n (initState n d0)).L with
          | a :: b :: _ => some ((njLoop n (initState n d0)).edges
              ++ [(a, b)], (njLoop n (initState n d0)).d)
          | _ => none) = some (es, d2) := h
    split at h2
    · exact absurd h2 (by simp)
    · split at h2
      · obtain ⟨h3, h4⟩ := Prod.mk.injEq .. ▸ Option.some.injEq .. ▸ h2
        exact h4.symm
      · exact absurd h2 (by simp)
  rw [hd]
  exact hf.2 i j hi hj

theorem c10_leaf_frame_witness :
    ∃ es d2, neighbor_join 3 (mkStore 3 Dex) = some (es, d2) ∧
      d2 0 1 = mkStore 3 Dex 0 1 := by
  obtain ⟨⟨es, d2⟩, hp⟩ := Option.isSome_iff_exists.mp
    (show (neighbor_join 3 (mkStore 3 Dex)).isSome = true by
      with_unfolding_all decide)
  exact ⟨es, d2, hp,
    c10_leaf_frame 3 (mkStore 3 Dex) es d2 0 1 (by omega) (by omega) hp⟩

/-- Claim C9 counterexample: tree assembly does not fail on an internal node
with three children (the claim asserts any branching degree other than two
or zero encountered during assembly is a surfaced fatal error): assembling
the star on root 0 with edges to 1, 2, 3 succeeds. -/
theorem c9_counterexample :
    (assemble_tree 4 0 [(0, 1), (0, 2), (0, 3)]).isSome = true := by decide

/-- Claim C9 (amended): during Newick serialization an internal node whose
child list is neither empty nor an exact two-element list makes the
serializer fail (the tuple unpacking raises, modelled as `none`) instead of
producing output; tree assembly, by contrast, accepts any branching degree
without error and records every child: the three-child star yields the
complete map with all three children of the root, none dropped or merged. -/
theorem c9_newick_arity (fuel : ℕ) (tm : ℕ → List ℕ) (d : Store)
    (mp : Option (ℕ → String)) (root : ℕ) (first : Bool)
    (h0 : tm root ≠ []) (h2 : ∀ i j : ℕ, tm root ≠ [i, j]) :
    generate_newick fuel tm d mp root first = none ∧
    assemble_tree 4 0 [(0, 1), (0, 2), (0, 3)] =
      some [(0, [1, 2, 3]), (1, []), (2, []), (3, [])] := by
  refine ⟨?_, by decide⟩
  cases fuel with
  | zero => rfl
  | succ f => simp only [generate_newick]

theorem c9_newick_arity_witness :
    generate_newick 1 (fun _ => [1, 2, 3]) (mkStore 0 (fun _ _ => 0)) none 0
        true = none ∧
    assemble_tree 4 0 [(0, 1), (0, 2), (0, 3)] =
      some [(0, [1, 2, 3]), (1, []), (2, []), (3, [])] :=
  c9_newick_arity 1 (fun _ => [1, 2, 3]) (mkStore 0 (fun _ _ => 0)) none 0 true
    (by simp) (fun i j => by simp)

theorem digitChar_isDigit (m : ℕ) : (digitChar m).isDigit = true := by
  unfold digitChar
  have h : m % 10 < 10 := Nat.mod_lt m (by omega)
  generalize hgen : m % 10 = r
  rw [hgen] at h
  interval_cases r <;> decide

/-- Claim C3: at a root with children (i, j) and first = true, the branch
lengths written for both children are each `d i j / 2` (not `d root i` or
`d root j`, which are used exactly when first = false); at every call the
internal-node output has the shape `(leftText:leftLength,rightText:rightLength)`
with the terminating semicolon appended exactly when the call is the
outermost one; and every formatted length is an integer part, a dot, and
exactly six decimal digits. -/
theorem c3_newick_shape (fuel : ℕ) (tm : ℕ → List ℕ) (d : Store)
    (mp : Option (ℕ → String)) (root i j : ℕ) (sL sR : String)
    (htm : tm root = [i, j])
    (hL : generate_newick fuel tm d mp i false = some sL)
    (hR : generate_newick fuel tm d mp j false = some sR) :
    (generate_newick (fuel + 1) tm d mp root true =
      some ( "(" ++ sL ++ ":" ++ fmt6 (dget d i j / 2) ++ "," ++ sR ++ ":"
        ++ fmt6 (dget d i j / 2) ++ ")" ++ ";")) ∧
    (generate_newick (fuel + 1) tm d mp root false =
      some ( "(" ++ sL ++ ":" ++ fmt6 (dget d root i) ++ "," ++ sR ++ ":"
        ++ fmt6 (dget d root j) ++ ")" ++ "")) ∧
    ∀ q : ℚ, ∃ pre digs : String,
      fmt6 q = pre ++ "." ++ digs ∧ digs.length = 6 ∧
      ∀ c ∈ digs.data, c.isDigit = true := by
  refine ⟨?_, ?_, ?_⟩
  · simp only [generate_newick, htm, hL, hR]
    rfl
  · simp only [generate_newick, htm, hL, hR]
    rfl
  · intro q
    refine ⟨(if (⌊q * 1000000 + 1 / 2⌋ : ℤ) < 0 then "-" else "") ++
      toString (⌊q * 1000000 + 1 / 2⌋.natAbs / 1000000),
      frac6 (⌊q * 1000000 + 1 / 2⌋.natAbs % 1000000), rfl, rfl, ?_⟩
    intro c hc
    have hdata : (frac6 (⌊q * 1000000 + 1 / 2⌋.natAbs % 1000000)).data =
      [digitChar (⌊q * 1000000 + 1 / 2⌋.natAbs % 1000000 / 100000),
       digitChar (⌊q * 1000000 + 1 / 2⌋.natAbs % 1000000 / 10000),
       digitChar (⌊q * 1000000 + 1 / 2⌋.natAbs % 1000000 / 1000),
       digitChar (⌊q * 1000000 + 1 / 2⌋.natAbs % 1000000 / 100),
       digitChar (⌊q * 1000000 + 1 / 2⌋.natAbs % 1000000 / 10),
       digitChar (⌊q * 1000000 + 1 / 2⌋.natAbs % 1000000)] := rfl
    rw [hdata] at hc
    simp only [List.mem_cons, List.not_mem_nil, or_false] at hc
    rcases hc with rfl | rfl | rfl | rfl | rfl | rfl <;> exact digitChar_isDigit _

theorem c3_newick_shape_witness :
    (generate_newick 2 tmEx (mkStore 3 Dex) none 2 true =
      some ( "(" ++ "0" ++ ":" ++ fmt6 (dget (mkStore 3 Dex) 0 1 / 2) ++ ","
        ++ "1" ++ ":" ++ fmt6 (dget (mkStore 3 Dex) 0 1 / 2) ++ ")" ++ ";")) ∧
    (generate_newick 2 tmEx (mkStore 3 Dex) none 2 false =
      some ( "(" ++ "0" ++ ":" ++ fmt6 (dget (mkStore 3 Dex) 2 0) ++ ","
        ++ "1" ++ ":" ++ fmt6 (dget (mkStore 3 Dex) 2 1) ++ ")" ++ "")) ∧
    ∀ q : ℚ, ∃ pre digs : String,
      fmt6 q = pre ++ "." ++ digs ∧ digs.length = 6 ∧
      ∀ c ∈ digs.data, c.isDigit = true :=
  c3_newick_shape 1 tmEx (mkStore 3 Dex) none 2 0 1 "0" "1" rfl rfl rfl

/-- The maximum-weight-edge scan, characterized when some edge has positive
weight (and the store has a zero entry at (0, 0), as the diagonal invariant
guarantees): the selected edge is the first edge in list order attaining the
maximum weight, every earlier edge weighing strictly less and no edge
weighing more. -/
theorem select_max_edge_spec (edges : List (ℕ × ℕ)) (d : Store)
    (hd0 : dget d 0 0 = 0)
    (hpos : ∃ e ∈ edges, 0 < dget d e.1 e.2) :
    ∃ es1 es2,
      edges = es1 ++ (select_max_edge edges d) :: es2 ∧
      0 < dget d (select_max_edge edges d).1 (select_max_edge edges d).2 ∧
      (∀ e ∈ es1, dget d e.1 e.2 <
        dget d (select_max_edge edges d).1 (select_max_edge edges d).2) ∧
      ∀ e ∈ edges, dget d e.1 e.2 ≤
        dget d (select_max_edge edges d).1 (select_max_edge edges d).2 := by
  have hsel : select_max_edge edges d =
      edges.foldl (fun x q =>
        if dget d x.1 x.2 < dget d q.1 q.2 then q else x) (0, 0) := by
    show ((edges.foldl (fun acc e =>
        if acc.2.2 < dget d e.1 e.2 then (e.1, e.2, dget d e.1 e.2) else acc)
        (0, 0, (0 : ℚ))).1,
      (edges.foldl (fun acc e =>
        if acc.2.2 < dget d e.1 e.2 then (e.1, e.2, dget d e.1 e.2) else acc)
        (0, 0, (0 : ℚ))).2.1) = _
    rw [foldl_max_triple (fun q : ℕ × ℕ => dget d q.1 q.2) edges 0 0 0 hd0.symm]
  rcases foldl_max_split (fun q : ℕ × ℕ => dget d q.1 q.2) edges (0, 0) with
    ⟨hres, hle⟩ | ⟨l1, l2, hsplit, hgt, hstrict, hle⟩
  · obtain ⟨e, he, hpe⟩ := hpos
    have h2 : dget d e.1 e.2 ≤ dget d 0 0 := hle e he
    rw [hd0] at h2
    exact absurd hpe (not_lt.mpr h2)
  · rw [← hsel] at hsplit hgt hstrict hle
    have hgt2 : 0 < dget d (select_max_edge edges d).1
        (select_max_edge edges d).2 := by
      have h2 : dget d 0 0 < dget d (select_max_edge edges d).1
          (select_max_edge edges d).2 := hgt
      rw [hd0] at h2
      exact h2
    refine ⟨l1, l2, hsplit, hgt2, fun e he => hstrict e he, ?_⟩
    intro e he
    rw [hsplit] at he
    rcases List.mem_append.mp he with he | he
    · exact le_of_lt (hstrict e he)
    · rcases List.mem_cons.mp he with rfl | he
      · exact le_refl _
      · exact hle e he

theorem insert_root_eq (edges : List (ℕ × ℕ)) (d : Store) (root : ℕ)
    (h : select_max_edge edges d ∈ edges) :
    insert_root edges d root =
      some ((edges.erase (select_max_edge edges d)) ++
        [((select_max_edge edges d).1, root),
          ((select_max_edge edges d).2, root)]) := by
  simp only [insert_root]
  rw [if_pos h]

/-- Claim C4 counterexample: on the all-zero 3-leaf matrix (valid: symmetric,
zero diagonal, non-negative) every edge of the reducer output has weight 0,
the scan keeps its seed pair (0, 0), which is not an edge, and root insertion
fails instead of removing a maximum-weight edge. -/
theorem c4_counterexample : main_root 3 (fun _ _ => 0) = none := by
  with_unfolding_all decide

/-- Claim C4 (amended): on reducer output for a symmetric zero-diagonal
matrix with n at least 3, whenever at least one edge has positive weight,
root insertion removes exactly the first edge of maximum weight in edge-list
order (earlier edges weigh strictly less, none weighs more) and appends two
edges connecting its endpoints to the new root id 2n-2, the number of store
rows, one greater than the maximum id 2n-3 used so far.  When no edge has
positive weight the scan keeps its sentinel pair and removal fails (see the
counterexample). -/
theorem c4_root_insertion (n : ℕ) (D : ℕ → ℕ → ℚ) (hn : 3 ≤ n)
    (hsym : ∀ i j, D i j = D j i) (hdiag : ∀ i, D i i = 0) :
    ∃ es d2, neighbor_join n (mkStore n D) = some (es, d2) ∧
      (∀ e ∈ es, e.1 < 2 * n - 2 ∧ e.2 < 2 * n - 2) ∧
      (∃ e ∈ es, e.1 = 2 * n - 3 ∨ e.2 = 2 * n - 3) ∧
      ((∃ e ∈ es, 0 < dget d2 e.1 e.2) →
        (∃ es1 es2, es = es1 ++ (select_max_edge es d2) :: es2 ∧
          (∀ e ∈ es1, dget d2 e.1 e.2 <
            dget d2 (select_max_edge es d2).1 (select_max_edge es d2).2) ∧
          ∀ e ∈ es, dget d2 e.1 e.2 ≤
            dget d2 (select_max_edge es d2).1 (select_max_edge es d2).2) ∧
        main_root n D = some ((es.erase (select_max_edge es d2)) ++
          [((select_max_edge es d2).1, 2 * n - 2),
            ((select_max_edge es d2).2, 2 * n - 2)])) := by
  obtain ⟨hInv, hk, a, b, hab, hL, hnj⟩ := nj_final n D (by omega) hsym hdiag
  have hmemA : a ∈ (njLoop n (initState n (mkStore n D))).L := by
    rw [hL]; exact List.mem_cons_self a [b]
  have hmemB : b ∈ (njLoop n (initState n (mkStore n D))).L := by
    rw [hL]; exact List.mem_cons_of_mem a (List.mem_cons_self b [])
  have hmr : main_root n D =
      insert_root ((njLoop n (initState n (mkStore n D))).edges ++ [(a, b)])
        (njLoop n (initState n (mkStore n D))).d
        (njLoop n (initState n (mkStore n D))).k := by
    show (if 2 < (njLoop n (initState n (mkStore n D))).L.length then none
      else match (njLoop n (initState n (mkStore n D))).L with
        | a :: b :: _ =>
            insert_root ((njLoop n (initState n (mkStore n D))).edges
              ++ [(a, b)]) (njLoop n (initState n (mkStore n D))).d
              (njLoop n (initState n (mkStore n D))).k
        | _ => none) = _
    rw [hL]
    simp
  refine ⟨_, _, hnj, ?_, ?_, ?_⟩
  · intro e he
    rcases List.mem_append.mp he with he | he
    · obtain ⟨h1, h2⟩ := hInv.ebound e he
      rw [hk] at h1 h2
      exact ⟨h1, h2⟩
    · rw [List.mem_singleton.mp he]
      have ha := hInv.bound a hmemA
      have hb := hInv.bound b hmemB
      rw [hk] at ha hb
      exact ⟨ha, hb⟩
  · rcases hInv.cover (2 * n - 3) (by omega) with hmL | ⟨e, he, hor⟩
    · rw [hL] at hmL
      rcases List.mem_cons.mp hmL with h1 | hmL
      · exact ⟨(a, b), List.mem_append_right _ (List.mem_singleton_self _),
          Or.inl h1.symm⟩
      · rw [List.mem_singleton.mp hmL]
        exact ⟨(a, b), List.mem_append_right _ (List.mem_singleton_self _),
          Or.inr rfl⟩
    · exact ⟨e, List.mem_append_left _ he, hor⟩
  · intro hpos
    have hd0 : dget (njLoop n (initState n (mkStore n D))).d 0 0 = 0 :=
      hInv.ddiag 0
    obtain ⟨es1, es2, hsplit, _, hstrict, hle⟩ :=
      select_max_edge_spec _ _ hd0 hpos
    have hmem : select_max_edge
        ((njLoop n (initState n (mkStore n D))).edges ++ [(a, b)])
        (njLoop n (initState n (mkStore n D))).d ∈
        (njLoop n (initState n (mkStore n D))).edges ++ [(a, b)] := by
      nth_rewrite 1 [hsplit]
      exact List.mem_append_right _ (List.mem_cons_self _ _)
    refine ⟨⟨es1, es2, hsplit, hstrict, hle⟩, ?_⟩
    rw [hmr, hk] at *
    exact insert_root_eq _ _ _ hmem

theorem c4_root_insertion_witness :
    ∃ es d2, neighbor_join 3 (mkStore 3 Dex) = some (es, d2) ∧
      (∀ e ∈ es, e.1 < 2 * 3 - 2 ∧ e.2 < 2 * 3 - 2) ∧
      (∃ e ∈ es, e.1 = 2 * 3 - 3 ∨ e.2 = 2 * 3 - 3) ∧
      ((∃ e ∈ es, 0 < dget d2 e.1 e.2) →
        (∃ es1 es2, es = es1 ++ (select_max_edge es d2) :: es2 ∧
          (∀ e ∈ es1, dget d2 e.1 e.2 <
            dget d2 (select_max_edge es d2).1 (select_max_edge es d2).2) ∧
          ∀ e ∈ es, dget d2 e.1 e.2 ≤
            dget d2 (select_max_edge es d2).1 (select_max_edge es d2).2) ∧
        main_root 3 Dex = some ((es.erase (select_max_edge es d2)) ++
          [((select_max_edge es d2).1, 2 * 3 - 2),
            ((select_max_edge es d2).2, 2 * 3 - 2)])) :=
  c4_root_insertion 3 Dex (by omega) Dex_symm Dex_diag

end Contracts
